import Mathlib

/-!
Verification of the diavlos organization-synchronization module
(`src/diavlos/src/organization/organization.py` and the legacy variant
`src/src/organizations.py`).

The Python code is shallowly embedded: dictionaries (which in Python are
insertion-ordered) become association lists where a fresh key is appended at
the end and an existing key keeps its position, Python strings become Lean
`String`/`List Char`, and the flat organization records returned by the
registry API become the structure `Org` below.
-/

namespace Diavlos

/-- One flat organization record, as returned by the registry API and
consumed by `_fetch_hierarchy_from_api`: its `code`, its human-readable
`preferredLabel`, and the optional parent code `subOrganizationOf`. -/
structure Org where
  code : String
  preferredLabel : String
  subOrganizationOf : Option String
deriving DecidableEq

/-- An entry of the `parent_children_orgs` dictionary: parent code mapped to
the single-entry dictionary from the parent label to the list of child
labels. -/
abbrev PCEntry := String × String × List String

/-- The `parent_children_orgs` dictionary, as an insertion-ordered
association list keyed by parent code. -/
abbrev PCMap := List PCEntry

/-- Lookup in an insertion-ordered association list (Python `dict.get`). -/
def alookup {α : Type} : List (String × α) → String → Option α
  | [], _ => none
  | (k, v) :: rest, key => if k = key then some v else alookup rest key

/-- Overwrite the value at an existing key, keeping its position
(Python `d[k] = v` when `k` is already a key of `d`). -/
def aupdate {α : Type} (m : List (String × α)) (key : String) (v : α) :
    List (String × α) :=
  m.map (fun p => if p.1 = key then (key, v) else p)

/-- The linear scan `for org2 in all_orgs: if org2['code'] == parent_code`
inside `_fetch_hierarchy_from_api`. -/
def findOrg (orgs : List Org) (c : String) : Option Org :=
  orgs.find? (fun o => o.code == c)

/-- One iteration of the main loop of `_fetch_hierarchy_from_api`
(organization.py lines 258-283): a record with no parent code registers a
root node unless its code is already a key; a record with a parent code is
appended to the parent's children when the parent node exists, otherwise the
parent record is searched for in the full record list and a node is created
for it with this child as first element; a parent code matching no record is
dropped. -/
def hierStep (allOrgs : List Org) (m : PCMap) (org : Org) : PCMap :=
  match org.subOrganizationOf with
  | none =>
    if (alookup m org.code).isSome then m
    else m ++ [(org.code, org.preferredLabel, [])]
  | some parentCode =>
    match alookup m parentCode with
    | some (plabel, children) =>
      aupdate m parentCode (plabel, children ++ [org.preferredLabel])
    | none =>
      match findOrg allOrgs parentCode with
      | none => m
      | some org2 => m ++ [(parentCode, org2.preferredLabel, [org.preferredLabel])]

/-- The full first loop of `_fetch_hierarchy_from_api`: fold `hierStep` over
the record list, the inner search also ranging over that same list. -/
def buildPCMap (orgs : List Org) : PCMap :=
  orgs.foldl (hierStep orgs) []

/-- The assignment `hierarchy[label] = children` on the final Python dict: overwrite in
place when the label is already a key, append otherwise. -/
def hinsert (h : List (String × List String)) (label : String)
    (cs : List String) : List (String × List String) :=
  if (alookup h label).isSome then aupdate h label cs else h ++ [(label, cs)]

/-- The second loop of `_fetch_hierarchy_from_api` (lines 284-287): re-key
the `parent_children_orgs` dictionary by parent label. -/
def hierFinalize (m : PCMap) : List (String × List String) :=
  m.foldl (fun h e => hinsert h e.2.1 e.2.2) []

/-- The whole of `_fetch_hierarchy_from_api`, as a function of the flat
record list: mapping from parent `preferredLabel` to the ordered list of
child `preferredLabel`s. -/
def fetch_hierarchy (orgs : List Org) : List (String × List String) :=
  hierFinalize (buildPCMap orgs)

/-- The (parent label, child label) pairs of a built hierarchy, used to
compare two hierarchies as sets of edges. -/
def hierarchyPairs (h : List (String × List String)) : List (String × String) :=
  h.flatMap (fun e => e.2.map (fun c => (e.1, c)))

/-- Invariant for the orphan-exclusion proof (C1): every entry of the
`parent_children_orgs` map has a key that is some record's code, a node
label belonging to a record other than the orphan `o`, and children
labelled by records other than `o`. -/
def C1Inv (l : List Org) (o : Org) (m : PCMap) : Prop :=
  ∀ e ∈ m,
    (∃ q ∈ l, q.code = e.1) ∧
    (∃ q ∈ l, q ≠ o ∧ q.preferredLabel = e.2.1) ∧
    (∀ c ∈ e.2.2, ∃ q ∈ l, q ≠ o ∧ q.preferredLabel = c)

/-- The labels of the child records of parent code `k` among the processed
prefix `pre`, in processing order. -/
def childLabels (pre : List Org) (k : String) : List String :=
  (pre.filter (fun o => o.subOrganizationOf == some k)).map (·.preferredLabel)

/-- When the key `k` is present in the `parent_children_orgs` map after
processing the prefix `pre`: either a root with code `k` was seen, or a
child referencing `k` was seen and some record of the full list has code
`k`. -/
def KeyCond (allOrgs pre : List Org) (k : String) : Prop :=
  (∃ r ∈ pre, r.subOrganizationOf = none ∧ r.code = k) ∨
  (∃ r ∈ pre, r.subOrganizationOf = some k ∧ (findOrg allOrgs k).isSome = true)

/-- Full invariant of the hierarchy-building fold (C2), for a record list
with pairwise-distinct codes: the map keys are without duplicates, every
entry's label is the label of the (unique) record with the entry's code and
its children are exactly the labels of the processed children referencing
that code, and a key is present exactly under `KeyCond`. -/
def GoodMap (allOrgs pre : List Org) (m : PCMap) : Prop :=
  (m.map Prod.fst).Nodup ∧
  (∀ e ∈ m, ∃ q, findOrg allOrgs e.1 = some q ∧
    e.2.1 = q.preferredLabel ∧ e.2.2 = childLabels pre e.1) ∧
  (∀ k : String, (alookup m k).isSome = true ↔ KeyCond allOrgs pre k)

/-! ### Python string primitives used by the module -/

/-- Python's substring test `sub in s`, on character lists (`sub` is the
pattern).  The empty string is a substring of everything, as in Python. -/
def pyContainsL (sub : List Char) : List Char → Bool
  | [] => sub.isEmpty
  | c :: rest => sub.isPrefixOf (c :: rest) || pyContainsL sub rest

/-- Python's substring test `sub in s` on strings. -/
def pyContains (s sub : String) : Bool := pyContainsL sub.data s.data

/-- Fuelled worker for Python's `str.replace` with a nonempty pattern:
scan left to right, replacing each non-overlapping occurrence of `old` by
`new`.  Each step consumes at least one character, so fuel equal to the
input length suffices. -/
def pyReplaceFuel (old new : List Char) : Nat → List Char → List Char
  | 0, s => s
  | _ + 1, [] => []
  | fuel + 1, c :: rest =>
    if old.isPrefixOf (c :: rest) then
      new ++ pyReplaceFuel old new fuel ((c :: rest).drop old.length)
    else
      c :: pyReplaceFuel old new fuel rest

/-- Python's `s.replace(old, new)` on character lists: every non-overlapping
occurrence of `old` is replaced by `new`; with an empty pattern Python
inserts `new` at every gap, including both ends. -/
def pyReplaceL (s old new : List Char) : List Char :=
  if old.isEmpty then new ++ s.flatMap (fun c => c :: new)
  else pyReplaceFuel old new s.length s

/-- Python's `s.replace(old, new)` on strings. -/
def pyReplace (s old new : String) : String :=
  String.mk (pyReplaceL s.data old.data new.data)

/-- Python's default whitespace class for `str.strip` (restricted to the
ASCII whitespace characters; the data handled by the module is
ASCII-or-Greek text where these are the only whitespace). -/
def pyWs (c : Char) : Bool :=
  c = ' ' || c = '\t' || c = '\n' || c = '\r' || c = '\x0b' || c = '\x0c'

/-- Python's `s.strip()` on character lists. -/
def pyStripL (s : List Char) : List Char :=
  ((s.dropWhile pyWs).reverse.dropWhile pyWs).reverse

/-- Python's `s.strip()` on strings. -/
def pyStrip (s : String) : String := String.mk (pyStripL s.data)

/-! ### The idempotent write rule `_add_text_to_page` -/

/-- The marker `CATEGORY_PREFIX = '[[Category:'` of organization.py. -/
def categoryMarker : String := "[[Category:"

/-- A wiki page as seen by `_add_text_to_page`: whether it exists and its
current wikitext.  `page.edit(t)` sets the text to `t` and makes the page
exist. -/
structure Page where
  pageExists : Bool
  text : String
deriving DecidableEq

/-- The function `_add_text_to_page(page, text, replace_text)` (organization.py lines
75-101).  The input page handle may be `none` (a failed `_get_site_page`
lookup).  Returns the page state after the call together with the text
written by `page.edit`, when an edit happened. -/
def add_text_to_page (page : Option Page) (text : String)
    (replace_text : Option String) : Option Page × Option String :=
  match page with
  | none => (none, none)
  | some p =>
    let new_text : Option String :=
      if p.pageExists then
        match replace_text with
        | some rt =>
          if pyContains p.text rt then some (pyReplace p.text rt text)
          else if pyContains p.text categoryMarker then none
          else some text
        | none =>
          if pyContains p.text categoryMarker then none
          else some text
      else some text
    match new_text with
    | none => (some p, none)
    | some t => (some { pageExists := true, text := t }, some t)

/-! ### The template block remover of `update_pages` -/

/-- The characters of the opening marker of the template regex
`r'{{Φορέας[^{}]+}}'` (the braces are written as `\x7b`/`\x7d`). -/
def templateOpening : List Char := "\x7b\x7bΦορέας".data

/-- Whether a character is neither `{` nor `}` (the class `[^{}]`). -/
def nonBrace (c : Char) : Bool := !(c = '\x7b' || c = '\x7d')

/-- A character list without braces. -/
def braceFree (s : List Char) : Bool := s.all nonBrace

/-- A full template block `{{Φορέας<mid>}}`: the text matched by the
removal regex when `mid` is nonempty and brace-free. -/
def templateBlock (mid : List Char) : List Char :=
  templateOpening ++ mid ++ ['\x7d', '\x7d']

/-- Attempt to match the regex `{{Φορέας[^{}]+}}` at the start of `s`,
returning the length of the match: the opening marker, a maximal nonempty
run of non-brace characters, then `}}`.  (The greedy `[^{}]+` can only
yield the maximal run here, because any shorter run would have to be
followed by a brace, and run characters are non-braces.) -/
def tryMatch (s : List Char) : Option Nat :=
  if templateOpening.isPrefixOf s then
    let rest := s.drop templateOpening.length
    let run := rest.takeWhile nonBrace
    if run.isEmpty then none
    else if ['\x7d', '\x7d'].isPrefixOf (rest.drop run.length) then
      some (templateOpening.length + run.length + 2)
    else none
  else none

/-- Fuelled worker for `re.sub(r'{{Φορέας[^{}]+}}', '', s)`: scan left to
right, deleting every non-overlapping leftmost match and resuming after
it.  Each step consumes at least one character, so fuel equal to the input
length suffices. -/
def reSubFuel : Nat → List Char → List Char
  | 0, s => s
  | _ + 1, [] => []
  | fuel + 1, c :: rest =>
    match tryMatch (c :: rest) with
    | some n => reSubFuel fuel ((c :: rest).drop n)
    | none => c :: reSubFuel fuel rest

/-- The substitution `re.sub(r'{{Φορέας[^{}]+}}', '', s)` on character lists: remove every
non-overlapping match, scanning left to right. -/
def reSubTemplate (s : List Char) : List Char := reSubFuel s.length s

/-- The page-text merge step of `update_pages` (organization.py lines
498-503): remove every template block from the existing page text, strip
the remainder, and set the page to the freshly rendered text, a newline,
and that remainder. -/
def mergePageText (rendered pageText : String) : String :=
  rendered ++ "\n" ++ pyStrip (String.mk (reSubTemplate pageText.data))

/-- Removal of only the first (leftmost) template block match, as the claim
"removes exactly one template block" would have it: delete the leftmost
match and stop scanning.  This is the claim's reading of the merge step,
kept for comparison with `reSubTemplate`, which `re.sub` makes global. -/
def removeFirstFuel : Nat → List Char → List Char
  | 0, s => s
  | _ + 1, [] => []
  | fuel + 1, c :: rest =>
    match tryMatch (c :: rest) with
    | some n => (c :: rest).drop n
    | none => c :: removeFirstFuel fuel rest

/-- The page-text merge as the claim states it: remove exactly one
(leftmost) template block, strip, and set rendered + newline + remainder. -/
def mergePageTextOnce (rendered pageText : String) : String :=
  rendered ++ "\n" ++
    pyStrip (String.mk (removeFirstFuel pageText.data.length pageText.data))

/-! ### The pruner `delete_old` -/

/-- The substitution `re.sub(' +', ' ', s)`: collapse every run of spaces to a single space,
by dropping each space that is immediately followed by another space. -/
def collapseSpaces : List Char → List Char
  | [] => []
  | [c] => [c]
  | a :: b :: rest =>
    if a = ' ' ∧ b = ' ' then collapseSpaces (b :: rest)
    else a :: collapseSpaces (b :: rest)

/-- The name normalization of `delete_old` (organization.py line 519):
`re.sub(' +', ' ', label.strip())`. -/
def collapseName (s : String) : String :=
  String.mk (collapseSpaces (pyStripL s.data))

/-- The wiki state visible to `delete_old`: the titles of the catalogue
member pages and the names of the existing category pages. -/
structure WikiState where
  cataloguePages : List String
  categoryPages : List String
deriving DecidableEq

/-- The command `delete_old(dry_run)` (organization.py lines 508-536) as a function of
the upstream record list and the wiki state: compute the collapsed upstream
name set; for every catalogue page whose title is not in it, either record
it as flagged (dry run: only a `print`) or delete the page and, when a
same-named category page exists, that category page too.  Returns the
final wiki state and the list of flagged titles. -/
def delete_old (upstream : List Org) (w : WikiState) (dry_run : Bool) :
    WikiState × List String :=
  let latest := upstream.map (fun o => collapseName o.preferredLabel)
  w.cataloguePages.foldl
    (fun st title =>
      if title ∈ latest then st
      else if dry_run then (st.1, st.2 ++ [title])
      else
        ({ cataloguePages := st.1.cataloguePages.filter (fun t => t ≠ title),
           categoryPages := st.1.categoryPages.filter (fun t => t ≠ title) },
         st.2 ++ [title]))
    (w, [])

/-! ### Status translation in `fetch_details_from_api` -/

/-- The fixed table `STATUS_TRANSLATION` (organization.py lines 160-163). -/
def STATUS_TRANSLATION : List (String × String) :=
  [("Active", "Ενεργός"), ("Inactive", "Ανενεργός")]

/-- The status-translation step of `fetch_details_from_api` (organization.py
lines 325-328): a missing or empty (falsy) status is left untouched; a
non-empty status is looked up in `STATUS_TRANSLATION`, and a failed lookup
is a Python `KeyError`, modelled as `Except.error` carrying the offending
key. -/
def statusStep (status : Option String) : Except String (Option String) :=
  match status with
  | none => .ok none
  | some s =>
    if s = "" then .ok (some s)
    else
      match alookup STATUS_TRANSLATION s with
      | some t => .ok (some t)
      | none => .error s

/-! ### Template rendering in `update_pages` -/

/-- Python's `xml.sax.saxutils.escape`: replace `&`, `<`, `>` by their XML entities. -/
def xmlEscape (s : String) : String :=
  String.mk (s.data.flatMap (fun c =>
    if c = '&' then "&amp;".data
    else if c = '<' then "&lt;".data
    else if c = '>' then "&gt;".data
    else [c]))

/-- The telephone clean-up of `template_text` (organization.py lines
478-486), applied to the escaped value: remove every occurrence of `' '`,
then every occurrence of `'+30'` (Python `str.replace` is global), then
keep the longest digit-only leading run (the loop that breaks at the first
non-digit; Python's `isdigit` is modelled on ASCII digits, the only digits
that occur in telephone data). -/
def telephoneCleanup (v : String) : String :=
  String.mk (((pyReplace (pyReplace v " " "") "+30" "").data).takeWhile Char.isDigit)

/-- The telephone clean-up as the claim words it: strip all spaces, strip a
single leading `'+30'`, then truncate at the first non-digit. -/
def telephoneCleanupLeading (v : String) : String :=
  let w := (pyReplace v " " "").data
  let w' := if "+30".data.isPrefixOf w then w.drop 3 else w
  String.mk (w'.takeWhile Char.isDigit)

/-- Split a character list on every occurrence of a nonempty pattern
(Python `s.split(pat)`), fuelled like `pyReplaceFuel`.  Used to state the
amended telephone claim "remove every occurrence" independently of
`pyReplaceFuel`. -/
def splitFuel (pat : List Char) : Nat → List Char → List (List Char)
  | 0, s => [s]
  | _ + 1, [] => [[]]
  | fuel + 1, c :: rest =>
    if pat.isPrefixOf (c :: rest) then
      [] :: splitFuel pat fuel ((c :: rest).drop pat.length)
    else
      match splitFuel pat fuel rest with
      | [] => [[c]]
      | seg :: segs => (c :: seg) :: segs

/-- Remove every occurrence of a nonempty pattern by splitting on it and
concatenating the fragments (Python `''.join(s.split(pat))`). -/
def removeEveryOcc (s pat : String) : String :=
  String.mk ((splitFuel pat.data s.data.length s.data).flatten)

/-- The telephone clean-up as amended: strip all spaces, remove every
occurrence of `'+30'`, truncate at the first non-digit. -/
def telephoneCleanupEvery (v : String) : String :=
  String.mk ((removeEveryOcc (removeEveryOcc v " ") "+30").data.takeWhile Char.isDigit)

/-- A scalar detail value: a JSON string or a list of strings (the only
value shapes the template renderer distinguishes: `isinstance(value, list)`
joins with commas). -/
inductive DVal where
  | str : String → DVal
  | strs : List String → DVal
deriving DecidableEq

/-- A detail record as consumed by `template_text`: the flat fields, and
the dict-valued fields (`contactPoint`, `mainAddress`) reached through the
compound `outer_inner` keys. -/
structure OrgDetails where
  flat : List (String × DVal)
  nested : List (String × List (String × DVal))
deriving DecidableEq

/-- The fixed ordered field keys `TEMPLATE_FIELD_NAME_SUFFIXES`. -/
def TEMPLATE_FIELD_NAME_SUFFIXES : List String :=
  ["code", "preferredLabel", "alternativeLabels", "description", "url",
   "contactPoint_telephone", "contactPoint_email", "mainAddress_fullAddress",
   "mainAddress_postCode", "subOrganizationOf", "identifier", "purpose",
   "vatId", "status", "foundationDate", "terminationDate", "organizationType"]

/-- Split a character list at every underscore (Python `key.split('_')`). -/
def splitUnderscore : List Char → List (List Char)
  | [] => [[]]
  | c :: rest =>
    if c = '_' then [] :: splitUnderscore rest
    else
      match splitUnderscore rest with
      | [] => [[c]]
      | seg :: segs => (c :: seg) :: segs

/-- The value resolved by `template_text` for one field key: a flat lookup,
or, for a key containing an underscore, a nested lookup through the two
parts of the split; a list value is comma-joined; the string is
XML-escaped; the telephone key gets the telephone clean-up. -/
def templateValue (d : OrgDetails) (key : String) : Option String :=
  let raw : Option DVal :=
    if pyContains key "_" then
      match splitUnderscore key.data with
      | outer :: inner :: _ =>
        (alookup d.nested (String.mk outer)).bind (fun m => alookup m (String.mk inner))
      | _ => none
    else alookup d.flat key
  raw.map (fun v =>
    let s := match v with
      | .str s => xmlEscape s
      | .strs xs => xmlEscape (String.intercalate "," xs)
    if key = "contactPoint_telephone" then telephoneCleanup s else s)

/-- Modelled from the spec: the serialization of the `mwtemplates`
`TemplateEditor` template (an external library, not part of this
repository).  Per spec §4.5 the template's serialized form lists the
parameters of the `TEMPLATE` skeleton in their fixed order as
`|gov_org_<key>=<value>` between the double braces, an unassigned parameter
keeping its empty value, and the code finally rewrites `' |'` to `'|'`. -/
def template_text (d : OrgDetails) : String :=
  pyReplace
    ("\x7b\x7bΦορέας" ++
      String.join (TEMPLATE_FIELD_NAME_SUFFIXES.map (fun key =>
        "|gov_org_" ++ key ++ "=" ++ (templateValue d key).getD "")) ++
      "\x7d\x7d")
    " |" "|"

/-! ### Lemmas about association lists -/

theorem alookup_isSome_iff {α : Type} (m : List (String × α)) (k : String) :
    (alookup m k).isSome = true ↔ ∃ v, (k, v) ∈ m := by
  induction m with
  | nil => simp [alookup]
  | cons e rest ih =>
    obtain ⟨ek, ev⟩ := e
    by_cases h : ek = k
    · subst h
      simp [alookup]
    · rw [show alookup ((ek, ev) :: rest) k = alookup rest k from by
        rw [alookup, if_neg h]]
      rw [ih]
      constructor
      · rintro ⟨v, hv⟩
        exact ⟨v, List.mem_cons_of_mem _ hv⟩
      · rintro ⟨v, hv⟩
        rcases List.mem_cons.mp hv with hv | hv
        · injection hv with h1 h2
          exact absurd h1.symm h
        · exact ⟨v, hv⟩

theorem alookup_mem {α : Type} {m : List (String × α)} {k : String} {v : α}
    (h : alookup m k = some v) : (k, v) ∈ m := by
  induction m with
  | nil => cases h
  | cons e rest ih =>
    obtain ⟨ek, ev⟩ := e
    by_cases hk : ek = k
    · subst hk
      rw [alookup, if_pos rfl] at h
      injection h with h
      subst h
      exact List.mem_cons_self _ _
    · rw [alookup, if_neg hk] at h
      exact List.mem_cons_of_mem _ (ih h)

theorem alookup_append_right {α : Type} {m1 : List (String × α)} {k : String}
    (h : alookup m1 k = none) (m2 : List (String × α)) :
    alookup (m1 ++ m2) k = alookup m2 k := by
  induction m1 with
  | nil => rfl
  | cons e rest ih =>
    obtain ⟨ek, ev⟩ := e
    by_cases hk : ek = k
    · rw [alookup, if_pos hk] at h
      cases h
    · rw [alookup, if_neg hk] at h
      rw [List.cons_append, alookup, if_neg hk]
      exact ih h

theorem mem_aupdate {α : Type} {m : List (String × α)} {k : String} {v : α}
    {e : String × α} (h : e ∈ aupdate m k v) :
    (e.1 = k ∧ e.2 = v) ∨ (e ∈ m ∧ e.1 ≠ k) := by
  unfold aupdate at h
  obtain ⟨q, hq, he⟩ := List.mem_map.mp h
  by_cases hk : q.1 = k
  · rw [if_pos hk] at he
    left
    rw [← he]
    exact ⟨rfl, rfl⟩
  · rw [if_neg hk] at he
    right
    rw [← he]
    exact ⟨hq, hk⟩

theorem aupdate_map_fst {α : Type} (m : List (String × α)) (k : String) (v : α) :
    (aupdate m k v).map Prod.fst = m.map Prod.fst := by
  unfold aupdate
  rw [List.map_map]
  refine List.map_congr_left ?_
  intro e _
  by_cases hk : e.1 = k
  · simp [hk]
  · simp [hk]

theorem alookup_aupdate_isSome {α : Type} (m : List (String × α)) (k k' : String)
    (v : α) :
    (alookup (aupdate m k v) k').isSome = (alookup m k').isSome := by
  induction m with
  | nil => rfl
  | cons e rest ih =>
    obtain ⟨ek, ev⟩ := e
    by_cases hk : ek = k
    · by_cases hk' : ek = k'
      · subst hk'
        rw [show aupdate ((ek, ev) :: rest) k v = (k, v) :: aupdate rest k v from by
          unfold aupdate
          rw [List.map_cons, if_pos hk]]
        rw [alookup, alookup, if_pos hk.symm, if_pos rfl]
        rfl
      · rw [show aupdate ((ek, ev) :: rest) k v = (k, v) :: aupdate rest k v from by
          unfold aupdate
          rw [List.map_cons, if_pos hk]]
        subst hk
        rw [alookup, alookup, if_neg hk', if_neg hk']
        exact ih
    · rw [show aupdate ((ek, ev) :: rest) k v = (ek, ev) :: aupdate rest k v from by
        unfold aupdate
        rw [List.map_cons, if_neg hk]]
      by_cases hk' : ek = k'
      · rw [alookup, alookup, if_pos hk', if_pos hk']
      · rw [alookup, alookup, if_neg hk', if_neg hk']
        exact ih

theorem findOrg_eq_none_iff {l : List Org} {p : String} :
    findOrg l p = none ↔ ∀ q ∈ l, q.code ≠ p := by
  unfold findOrg
  rw [List.find?_eq_none]
  constructor
  · intro h q hq
    have := h q hq
    simpa using this
  · intro h q hq
    simpa using h q hq

theorem findOrg_mem {l : List Org} {c : String} {q : Org}
    (h : findOrg l c = some q) : q ∈ l ∧ q.code = c := by
  refine ⟨List.mem_of_find?_eq_some h, ?_⟩
  have := List.find?_some h
  simpa using this

/-! ### Lemmas about the Python string primitives -/

theorem pyContainsL_iff (sub : List Char) (s : List Char) :
    pyContainsL sub s = true ↔ sub <:+: s := by
  induction s with
  | nil =>
    simp [pyContainsL, List.isEmpty_iff]
  | cons c rest ih =>
    simp [pyContainsL, List.infix_cons_iff, ih, Bool.or_eq_true,
      List.isPrefixOf_iff_prefix, or_comm]

theorem pyContains_iff (s sub : String) :
    pyContains s sub = true ↔ sub.data <:+: s.data :=
  pyContainsL_iff sub.data s.data

theorem pyContains_trans {s a b : String} (h1 : pyContains s a = true)
    (h2 : pyContains a b = true) : pyContains s b = true := by
  rw [pyContains_iff] at *
  exact h2.trans h1

theorem pyContainsL_of_append_left (sub rest : List Char) :
    pyContainsL sub (sub ++ rest) = true := by
  rw [pyContainsL_iff]
  exact ⟨[], rest, rfl⟩

theorem pyContainsL_cons_of (sub : List Char) (c : Char) (s : List Char)
    (h : pyContainsL sub s = true) : pyContainsL sub (c :: s) = true := by
  rw [pyContainsL_iff] at *
  exact h.trans (List.infix_cons (List.infix_refl s))

/-- Replacing an occurring pattern leaves at least one copy of the
replacement text in the result (fuelled worker version). -/
theorem pyReplaceFuel_contains_new (old new : List Char) (hold : old ≠ []) :
    ∀ (fuel : Nat) (t : List Char), t.length ≤ fuel →
      pyContainsL old t = true →
      pyContainsL new (pyReplaceFuel old new fuel t) = true := by
  intro fuel
  induction fuel with
  | zero =>
    intro t hlen hc
    interval_cases ht : t.length
    · rw [List.length_eq_zero] at ht
      subst ht
      simp [pyContainsL, List.isEmpty_iff, hold] at hc
  | succ fuel ih =>
    intro t hlen hc
    match t with
    | [] => simp [pyContainsL, List.isEmpty_iff, hold] at hc
    | c :: rest =>
      by_cases hp : old.isPrefixOf (c :: rest)
      · rw [pyReplaceFuel, if_pos hp]
        exact pyContainsL_of_append_left _ _
      · rw [pyReplaceFuel, if_neg hp]
        rw [pyContainsL, Bool.or_eq_true] at hc
        rcases hc with hc | hc
        · exact absurd hc hp
        · exact pyContainsL_cons_of _ _ _
            (ih rest (by simpa using Nat.le_of_succ_le_succ hlen) hc)

/-- Replacing an occurring pattern leaves at least one copy of the
replacement text in the result. -/
theorem pyContains_pyReplace_self (t old new : String)
    (h : pyContains t old = true) :
    pyContains (pyReplace t old new) new = true := by
  unfold pyReplace pyContains at *
  by_cases hold : old.data = []
  · rw [pyReplaceL, if_pos (by simp [List.isEmpty_iff, hold])]
    exact pyContainsL_of_append_left _ _
  · rw [pyReplaceL, if_neg (by simp [List.isEmpty_iff, hold])]
    exact pyReplaceFuel_contains_new old.data new.data hold t.data.length t.data le_rfl h

/-! ### Stability of a second `_add_text_to_page` application -/

/-- A second application of `_add_text_to_page` leaves the page state
unchanged when the page exists, its text is the ensure text or already
contains the category marker, and a given replace marker either does not
occur in the text or replacing it rewrites the text to itself. -/
theorem add_text_stable (q : Page) (text : String) (rt : Option String)
    (hex : q.pageExists = true)
    (htext : q.text = text ∨ pyContains q.text categoryMarker = true)
    (hrt : ∀ r, rt = some r →
      pyContains q.text r = false ∨ pyReplace q.text r text = q.text) :
    (add_text_to_page (some q) text rt).1 = some q := by
  have hq : q = { pageExists := true, text := q.text } := by
    cases q with
    | mk e t => simp at hex; rw [hex]
  unfold add_text_to_page
  cases rt with
  | none =>
    simp only [hex, if_true]
    by_cases hm : pyContains q.text categoryMarker = true
    · simp [hm]
    · rcases htext with htext | htext
      · simp only [hm, Bool.false_eq_true, if_false, if_true]
        rw [← htext]
        exact congrArg some hq.symm
      · exact absurd htext hm
  | some r =>
    simp only [hex, if_true]
    by_cases hc : pyContains q.text r = true
    · rcases hrt r rfl with hfix | hfix
      · rw [hc] at hfix; cases hfix
      · simp only [hc, if_true]
        rw [hfix]
        exact congrArg some hq.symm
    · simp only [hc, Bool.false_eq_true, if_false]
      by_cases hm : pyContains q.text categoryMarker = true
      · simp [hm]
      · rcases htext with htext | htext
        · simp only [hm, Bool.false_eq_true, if_false]
          rw [← htext]
          exact congrArg some hq.symm
        · exact absurd htext hm

/-! ## Claim theorems -/

/-- C3 counterexample: `_add_text_to_page` is not idempotent as stated.  On
a page that exists with text `"Y"`, ensure text `"XX"` and replace marker
`"X"`, the first application writes `"XX"`; the second application finds the
marker `"X"` in the page text and rewrites it to `"XXXX"`, so two
applications differ from one. -/
theorem c3_counterexample :
    (add_text_to_page
      (add_text_to_page (some ⟨true, "Y"⟩) "XX" (some "X")).1 "XX" (some "X")).1 ≠
    (add_text_to_page (some ⟨true, "Y"⟩) "XX" (some "X")).1 := by
  decide

/-- C3 amended: `_add_text_to_page` applied twice with identical inputs
yields the same final page state as one application, provided that, when a
replace marker is given, the ensure text contains the category marker
`[[Category:` and the marker does not occur in the page text produced by
the first application.  (With no replace marker this holds without side
conditions.) -/
theorem c3_amended (s : Option Page) (text : String) (rt : Option String)
    (h : ∀ r, rt = some r →
      pyContains text categoryMarker = true ∧
      ∀ q : Page, (add_text_to_page s text rt).1 = some q →
        pyContains q.text r = false) :
    (add_text_to_page (add_text_to_page s text rt).1 text rt).1 =
    (add_text_to_page s text rt).1 := by
  cases s with
  | none => rfl
  | some p =>
    cases hex : p.pageExists with
    | false =>
      have h1 : (add_text_to_page (some p) text rt).1 =
          some { pageExists := true, text := text } := by
        unfold add_text_to_page
        simp [hex]
      rw [h1]
      refine add_text_stable _ _ _ rfl (Or.inl rfl) ?_
      intro r hr
      exact Or.inl ((h r hr).2 _ h1)
    | true =>
      cases rt with
      | none =>
        by_cases hm : pyContains p.text categoryMarker = true
        · have h1 : (add_text_to_page (some p) text none).1 = some p := by
            unfold add_text_to_page
            simp [hex, hm]
          rw [h1]
          exact add_text_stable _ _ _ hex (Or.inr hm) (fun r hr => by cases hr)
        · have h1 : (add_text_to_page (some p) text none).1 =
              some { pageExists := true, text := text } := by
            unfold add_text_to_page
            simp [hex, hm]
          rw [h1]
          exact add_text_stable _ _ _ rfl (Or.inl rfl) (fun r hr => by cases hr)
      | some r =>
        obtain ⟨hmt, hafter⟩ := h r rfl
        by_cases hc : pyContains p.text r = true
        · have h1 : (add_text_to_page (some p) text (some r)).1 =
              some { pageExists := true, text := pyReplace p.text r text } := by
            unfold add_text_to_page
            simp [hex, hc]
          rw [h1]
          refine add_text_stable _ _ _ rfl (Or.inr ?_) ?_
          · exact pyContains_trans (pyContains_pyReplace_self _ _ _ hc) hmt
          · intro r' hr'
            injection hr' with hr'
            subst hr'
            exact Or.inl (hafter _ h1)
        · by_cases hm : pyContains p.text categoryMarker = true
          · have h1 : (add_text_to_page (some p) text (some r)).1 = some p := by
              unfold add_text_to_page
              simp [hex, hc, hm]
            rw [h1]
            refine add_text_stable _ _ _ hex (Or.inr hm) ?_
            intro r' hr'
            injection hr' with hr'
            subst hr'
            exact Or.inl (by simpa using hc)
          · have h1 : (add_text_to_page (some p) text (some r)).1 =
                some { pageExists := true, text := text } := by
              unfold add_text_to_page
              simp [hex, hc, hm]
            rw [h1]
            refine add_text_stable _ _ _ rfl (Or.inl rfl) ?_
            intro r' hr'
            injection hr' with hr'
            subst hr'
            exact Or.inl (hafter _ h1)

/-- C3 witness: the amended idempotence theorem applied to an existing page
containing free text, ensure text `[[Category:Κατάλογος Φορέων]]` and
replace marker `[[Category:Φορείς]]` (the shapes `_create_pages` uses). -/
theorem c3_witness :
    (add_text_to_page
      (add_text_to_page (some ⟨true, "some free text"⟩)
        "[[Category:Κατάλογος Φορέων]]" (some "[[Category:Φορείς]]")).1
      "[[Category:Κατάλογος Φορέων]]" (some "[[Category:Φορείς]]")).1 =
    (add_text_to_page (some ⟨true, "some free text"⟩)
      "[[Category:Κατάλογος Φορέων]]" (some "[[Category:Φορείς]]")).1 := by
  refine c3_amended _ _ _ ?_
  intro r hr
  injection hr with hr
  subst hr
  refine ⟨by decide, ?_⟩
  intro q hq
  have : q = ⟨true, "[[Category:Κατάλογος Φορέων]]"⟩ := by
    have := hq.symm.trans (by decide :
      (add_text_to_page (some ⟨true, "some free text"⟩)
        "[[Category:Κατάλογος Φορέων]]" (some "[[Category:Φορείς]]")).1 =
      some ⟨true, "[[Category:Κατάλογος Φορέων]]"⟩)
    injection this
  subst this
  decide

/-- C9: an existing page whose text contains the category marker
`[[Category:` and does not contain the given replace marker is left
untouched by `_add_text_to_page`: no edit is performed and the page state
is unchanged. -/
theorem c9_no_edit (p : Page) (text : String) (rt : Option String)
    (hex : p.pageExists = true)
    (hcat : pyContains p.text categoryMarker = true)
    (hrt : ∀ r, rt = some r → pyContains p.text r = false) :
    add_text_to_page (some p) text rt = (some p, none) := by
  unfold add_text_to_page
  cases rt with
  | none => simp [hex, hcat]
  | some r => simp [hex, hcat, hrt r rfl]

/-- C9 witness: a categorized page with no occurrence of the replace
marker is untouched. -/
theorem c9_witness :
    pyContains "[[Category:Δήμοι]]" categoryMarker = true ∧
    add_text_to_page (some ⟨true, "[[Category:Δήμοι]]"⟩)
      "[[Category:Κατάλογος Φορέων]]" (some "[[Category:Φορείς]]") =
    (some ⟨true, "[[Category:Δήμοι]]"⟩, none) := by
  refine ⟨by decide, c9_no_edit _ _ _ rfl (by decide) ?_⟩
  intro r hr
  injection hr with hr
  subst hr
  decide

/-- C10: `_add_text_to_page` called with a `None` page handle (the value
`_get_site_page` returns when the wiki lookup fails) performs no write and
returns normally: the result is the unchanged `none` state and no edit. -/
theorem c10_none_page (text : String) (rt : Option String) :
    add_text_to_page none text rt = (none, none) := rfl

/-- C6: the status-translation step of `fetch_details_from_api` maps
`Active` to `Ενεργός` and `Inactive` to `Ανενεργός`, and every other
non-empty status fails the `STATUS_TRANSLATION` lookup with a
`KeyError`-class error carrying the offending status. -/
theorem c6_status_translation :
    statusStep (some "Active") = .ok (some "Ενεργός") ∧
    statusStep (some "Inactive") = .ok (some "Ανενεργός") ∧
    ∀ s : String, s ≠ "" → s ≠ "Active" → s ≠ "Inactive" →
      statusStep (some s) = .error s := by
  refine ⟨rfl, rfl, ?_⟩
  intro s h0 h1 h2
  simp [statusStep, alookup, h0, Ne.symm h1, Ne.symm h2]

/-- The splitter `splitFuel` always returns at least one fragment. -/
theorem splitFuel_ne_nil (pat : List Char) :
    ∀ (fuel : Nat) (s : List Char), splitFuel pat fuel s ≠ [] := by
  intro fuel s
  match fuel, s with
  | 0, s => simp [splitFuel]
  | fuel + 1, [] => simp [splitFuel]
  | fuel + 1, c :: rest =>
    rw [splitFuel]
    by_cases hp : pat.isPrefixOf (c :: rest)
    · simp [hp]
    · simp only [hp, Bool.false_eq_true, if_false]
      cases splitFuel pat fuel rest <;> simp

/-- Replacing every occurrence of a pattern by the empty string is the same
as splitting on the pattern and concatenating the fragments. -/
theorem pyReplaceFuel_empty_eq_splitFuel (pat : List Char) :
    ∀ (fuel : Nat) (s : List Char),
      pyReplaceFuel pat [] fuel s = (splitFuel pat fuel s).flatten := by
  intro fuel
  induction fuel with
  | zero => intro s; simp [pyReplaceFuel, splitFuel]
  | succ fuel ih =>
    intro s
    match s with
    | [] => simp [pyReplaceFuel, splitFuel]
    | c :: rest =>
      rw [pyReplaceFuel, splitFuel]
      by_cases hp : pat.isPrefixOf (c :: rest)
      · simp only [hp, if_true, List.flatten_cons, List.nil_append]
        exact ih _
      · simp only [hp, Bool.false_eq_true, if_false]
        cases hsp : splitFuel pat fuel rest with
        | nil => exact absurd hsp (splitFuel_ne_nil pat fuel rest)
        | cons seg segs =>
          simp only [List.flatten_cons, List.cons_append]
          rw [ih, hsp]
          simp

/-- Python `s.replace(pat, '')` with a nonempty pattern equals removing
every occurrence of the pattern by split-and-concatenate. -/
theorem pyReplace_empty_eq_removeEveryOcc (s pat : String) (h : pat.data ≠ []) :
    pyReplace s pat "" = removeEveryOcc s pat := by
  unfold pyReplace removeEveryOcc pyReplaceL
  rw [if_neg (by simp [List.isEmpty_iff, h])]
  exact congrArg String.mk (pyReplaceFuel_empty_eq_splitFuel pat.data s.data.length s.data)

/-- C6 witness: the unrecognized status `Dissolved` raises. -/
theorem c6_witness :
    statusStep (some "Dissolved") = .error "Dissolved" :=
  c6_status_translation.2.2 "Dissolved" (by decide) (by decide) (by decide)

/-- The dry-run loop of `delete_old` only accumulates flagged titles and
never touches the wiki state. -/
theorem delete_old_dry_fold (latest : List String)
    (f : WikiState × List String → String → WikiState × List String)
    (hf : ∀ st title, f st title =
      if title ∈ latest then st else (st.1, st.2 ++ [title])) :
    ∀ (titles : List String) (w : WikiState) (acc : List String),
      titles.foldl f (w, acc) =
      (w, acc ++ titles.filter (fun t => !decide (t ∈ latest))) := by
  intro titles
  induction titles with
  | nil => intro w acc; simp
  | cons t rest ih =>
    intro w acc
    rw [List.foldl_cons, hf]
    by_cases hmem : t ∈ latest
    · rw [if_pos hmem, ih]
      simp [List.filter_cons, hmem]
    · rw [if_neg hmem, ih]
      simp [List.filter_cons, hmem]

/-- C7: in dry-run mode `delete_old` performs zero page or category
deletions — the wiki state is returned unchanged — and the flagged titles
are exactly the catalogue page titles not in the collapsed upstream
`preferredLabel` name set, in page order; in particular with upstream names
`A`, `B` and catalogue pages `A`, `B`, `C` exactly `C` is flagged. -/
theorem c7_delete_old :
    (∀ (upstream : List Org) (w : WikiState),
      delete_old upstream w true =
        (w, w.cataloguePages.filter (fun t =>
          !decide (t ∈ upstream.map (fun o => collapseName o.preferredLabel))))) ∧
    delete_old [⟨"1", "A", none⟩, ⟨"2", "B", none⟩]
        ⟨["A", "B", "C"], ["A", "B", "C"]⟩ true =
      (⟨["A", "B", "C"], ["A", "B", "C"]⟩, ["C"]) := by
  constructor
  · intro upstream w
    unfold delete_old
    have hf : ∀ (st : WikiState × List String) (title : String),
        (if title ∈ upstream.map (fun o => collapseName o.preferredLabel) then st
         else if (true : Bool) then (st.1, st.2 ++ [title])
         else
           ({ cataloguePages := st.1.cataloguePages.filter (fun t => t ≠ title),
              categoryPages := st.1.categoryPages.filter (fun t => t ≠ title) },
            st.2 ++ [title])) =
        (if title ∈ upstream.map (fun o => collapseName o.preferredLabel) then st
         else (st.1, st.2 ++ [title])) := by
      intro st title
      by_cases h : title ∈ upstream.map (fun o => collapseName o.preferredLabel) <;>
        simp [h]
    rw [delete_old_dry_fold (upstream.map (fun o => collapseName o.preferredLabel))
      _ hf]
    simp
  · decide

/-- C5 counterexample: the telephone clean-up of `template_text` does not
strip only a leading `+30` — Python's `str.replace` removes every
occurrence — so on `"210+301234"` the code yields `"2101234"` while the
claimed leading-strip procedure yields `"210"`. -/
theorem c5_counterexample :
    telephoneCleanup "210+301234" ≠ telephoneCleanupLeading "210+301234" := by
  decide

/-- C5 amended: the telephone value is cleaned by stripping all spaces,
removing every occurrence of the country-code literal `+30`, then
truncating at the first non-digit character; in particular
`"+30 21 0123 4567ext2"` yields `"2101234567"`. -/
theorem c5_amended :
    (∀ v : String, telephoneCleanup v = telephoneCleanupEvery v) ∧
    telephoneCleanup "+30 21 0123 4567ext2" = "2101234567" := by
  constructor
  · intro v
    unfold telephoneCleanup telephoneCleanupEvery
    rw [← pyReplace_empty_eq_removeEveryOcc v " " (by decide),
      ← pyReplace_empty_eq_removeEveryOcc _ "+30" (by decide)]
  · decide

/-- Merging any rendered text into an empty page text yields the rendered
text followed by the separator newline. -/
theorem mergePageText_empty (rendered : String) :
    mergePageText rendered "" = rendered ++ "\n" := by
  unfold mergePageText
  rw [show pyStrip (String.mk (reSubTemplate "".data)) = "" from rfl]
  simp

/-- Appending the separator newline always changes a string. -/
theorem append_newline_ne (t : String) : t ++ "\n" ≠ t := by
  intro h
  have h2 : (t ++ "\n").data = t.data := congrArg String.data h
  rw [String.data_append] at h2
  have h3 := congrArg List.length h2
  rw [List.length_append] at h3
  simp at h3

/-- C8 counterexample: merging a freshly rendered template into a page
whose prior text was empty does not give exactly the rendered block — the
code appends a newline separator even when the remainder is empty. -/
theorem c8_counterexample :
    mergePageText (template_text ⟨[], []⟩) "" ≠ template_text ⟨[], []⟩ := by
  rw [mergePageText_empty]
  exact append_newline_ne _

/-- C8 amended: for every detail record, rendering its template and merging
it into a page whose prior text was empty yields the rendered template
block followed by a single newline, with no other leftover text. -/
theorem c8_amended (d : OrgDetails) :
    mergePageText (template_text d) "" = template_text d ++ "\n" :=
  mergePageText_empty (template_text d)

/-! ### Order-independence of the hierarchy builder (C2) -/

theorem mem_keys_iff {α : Type} (m : List (String × α)) (k : String) :
    k ∈ m.map Prod.fst ↔ ∃ v, (k, v) ∈ m := by
  rw [List.mem_map]
  constructor
  · rintro ⟨⟨a, v⟩, hm, rfl⟩
    exact ⟨v, hm⟩
  · rintro ⟨v, hv⟩
    exact ⟨(k, v), hv, rfl⟩

theorem alookup_append_singleton_isSome {α : Type} (m : List (String × α))
    (a : String) (v : α) (k : String) :
    (alookup (m ++ [(a, v)]) k).isSome = true ↔
    (alookup m k).isSome = true ∨ k = a := by
  rw [alookup_isSome_iff, alookup_isSome_iff]
  constructor
  · rintro ⟨w, hw⟩
    rcases List.mem_append.mp hw with h | h
    · exact Or.inl ⟨w, h⟩
    · have h' : (k, w) = (a, v) := by simpa using h
      injection h' with h1 _
      exact Or.inr h1
  · rintro (⟨w, hw⟩ | rfl)
    · exact ⟨w, List.mem_append_left _ hw⟩
    · exact ⟨v, List.mem_append_right _ (by simp)⟩

/-- With pairwise-distinct codes, the linear search finds exactly the
member record with the sought code. -/
theorem findOrg_of_mem {l : List Org} (hcodes : (l.map Org.code).Nodup)
    {q : Org} (hq : q ∈ l) : findOrg l q.code = some q := by
  induction l with
  | nil => cases hq
  | cons x rest ih =>
    rw [List.map_cons, List.nodup_cons] at hcodes
    rcases List.mem_cons.mp hq with rfl | hq'
    · unfold findOrg
      rw [List.find?_cons_of_pos _ (by simp)]
    · have hx : (x.code == q.code) = false := by
        rw [beq_eq_false_iff_ne]
        intro h
        exact hcodes.1 (h ▸ List.mem_map_of_mem Org.code hq')
      unfold findOrg
      rw [List.find?_cons_of_neg _ (by simp [hx])]
      exact ih hcodes.2 hq'

theorem childLabels_append (pre : List Org) (x : Org) (k : String) :
    childLabels (pre ++ [x]) k =
    childLabels pre k ++
      (if x.subOrganizationOf = some k then [x.preferredLabel] else []) := by
  by_cases hx : x.subOrganizationOf = some k
  · simp [childLabels, List.filter_append, hx]
  · simp [childLabels, List.filter_append, hx]

theorem childLabels_eq_nil {pre : List Org} {k : String}
    (h : ∀ r ∈ pre, r.subOrganizationOf ≠ some k) : childLabels pre k = [] := by
  unfold childLabels
  rw [List.map_eq_nil_iff]
  rw [List.filter_eq_nil_iff]
  intro r hr
  simp [h r hr]

theorem mem_childLabels {pre : List Org} {k : String} {c : String} :
    c ∈ childLabels pre k ↔
    ∃ C ∈ pre, C.subOrganizationOf = some k ∧ C.preferredLabel = c := by
  unfold childLabels
  rw [List.mem_map]
  constructor
  · rintro ⟨C, hC, rfl⟩
    rw [List.mem_filter] at hC
    exact ⟨C, hC.1, by simpa using hC.2, rfl⟩
  · rintro ⟨C, hC, hsub, rfl⟩
    exact ⟨C, List.mem_filter.mpr ⟨hC, by simpa using hsub⟩, rfl⟩

theorem KeyCond_append (allOrgs pre : List Org) (x : Org) (k : String) :
    KeyCond allOrgs (pre ++ [x]) k ↔
    KeyCond allOrgs pre k ∨
      (x.subOrganizationOf = none ∧ x.code = k) ∨
      (x.subOrganizationOf = some k ∧ (findOrg allOrgs k).isSome = true) := by
  unfold KeyCond
  constructor
  · rintro (⟨r, hr, h1, h2⟩ | ⟨r, hr, h1, h2⟩)
    · rcases List.mem_append.mp hr with hr | hr
      · exact Or.inl (Or.inl ⟨r, hr, h1, h2⟩)
      · have : r = x := by simpa using hr
        subst this
        exact Or.inr (Or.inl ⟨h1, h2⟩)
    · rcases List.mem_append.mp hr with hr | hr
      · exact Or.inl (Or.inr ⟨r, hr, h1, h2⟩)
      · have : r = x := by simpa using hr
        subst this
        exact Or.inr (Or.inr ⟨h1, h2⟩)
  · rintro ((⟨r, hr, h1, h2⟩ | ⟨r, hr, h1, h2⟩) | ⟨h1, h2⟩ | ⟨h1, h2⟩)
    · exact Or.inl ⟨r, List.mem_append_left _ hr, h1, h2⟩
    · exact Or.inr ⟨r, List.mem_append_left _ hr, h1, h2⟩
    · exact Or.inl ⟨x, List.mem_append_right _ (by simp), h1, h2⟩
    · exact Or.inr ⟨x, List.mem_append_right _ (by simp), h1, h2⟩

theorem GoodMap_nil (allOrgs : List Org) : GoodMap allOrgs [] [] := by
  refine ⟨List.nodup_nil, ?_, ?_⟩
  · intro e he
    cases he
  · intro k
    simp [alookup, KeyCond]

/-- One step of the hierarchy fold preserves the full invariant, for a
record list with pairwise-distinct codes. -/
theorem hierStep_good (l : List Org) (hcodes : (l.map Org.code).Nodup)
    (pre : List Org) (x : Org) (hx : x ∈ l) (m : PCMap)
    (hm : GoodMap l pre m) : GoodMap l (pre ++ [x]) (hierStep l m x) := by
  obtain ⟨hnodup, hent, hkey⟩ := hm
  cases hsub : x.subOrganizationOf with
  | none =>
    simp only [hierStep, hsub]
    by_cases hl : (alookup m x.code).isSome = true
    · rw [if_pos hl]
      refine ⟨hnodup, ?_, ?_⟩
      · intro e he
        obtain ⟨q, hq1, hq2, hq3⟩ := hent e he
        refine ⟨q, hq1, hq2, ?_⟩
        rw [childLabels_append, hsub]
        simp [hq3]
      · intro k
        rw [KeyCond_append, hsub]
        simp only [true_and, reduceCtorEq, false_and, or_false]
        constructor
        · intro h
          exact Or.inl ((hkey k).mp h)
        · rintro (h | h)
          · exact (hkey k).mpr h
          · rw [← h]
            exact hl
    · rw [if_neg hl]
      have hxnotkey : x.code ∉ m.map Prod.fst := by
        intro hmem
        obtain ⟨v, hv⟩ := (mem_keys_iff m x.code).mp hmem
        exact hl ((alookup_isSome_iff m x.code).mpr ⟨v, hv⟩)
      refine ⟨?_, ?_, ?_⟩
      · rw [List.map_append]
        refine List.Nodup.append hnodup (by simp) ?_
        intro a ha hb
        have : a = x.code := by simpa using hb
        subst this
        exact hxnotkey ha
      · intro e he
        rcases List.mem_append.mp he with he | he
        · obtain ⟨q, hq1, hq2, hq3⟩ := hent e he
          refine ⟨q, hq1, hq2, ?_⟩
          rw [childLabels_append, hsub]
          simp [hq3]
        · have he' : e = (x.code, x.preferredLabel, []) := by simpa using he
          subst he'
          refine ⟨x, findOrg_of_mem hcodes hx, rfl, ?_⟩
          rw [childLabels_append, hsub]
          have hnil : childLabels pre x.code = [] := by
            refine childLabels_eq_nil ?_
            intro r hr hrs
            have : (alookup m x.code).isSome = true := by
              refine (hkey x.code).mpr (Or.inr ⟨r, hr, hrs, ?_⟩)
              rw [findOrg_of_mem hcodes hx]
              rfl
            exact hl this
          rw [hnil]
          simp
      · intro k
        rw [alookup_append_singleton_isSome, KeyCond_append, hsub]
        simp only [true_and, reduceCtorEq, false_and, or_false]
        constructor
        · rintro (h | h)
          · exact Or.inl ((hkey k).mp h)
          · exact Or.inr h.symm
        · rintro (h | h)
          · exact Or.inl ((hkey k).mpr h)
          · exact Or.inr h.symm
  | some pc =>
    simp only [hierStep, hsub]
    cases hlk : alookup m pc with
    | some plch =>
      obtain ⟨plabel, children⟩ := plch
      dsimp only
      have hold : (pc, (plabel, children)) ∈ m := alookup_mem hlk
      obtain ⟨q0, hq01, hq02, hq03⟩ := hent _ hold
      refine ⟨?_, ?_, ?_⟩
      · rw [aupdate_map_fst]
        exact hnodup
      · intro e he
        rcases mem_aupdate he with ⟨he1, he2⟩ | ⟨hmem, hne⟩
        · refine ⟨q0, ?_, ?_, ?_⟩
          · rw [he1]
            exact hq01
          · rw [he2]
            exact hq02
          · rw [he2, he1]
            rw [childLabels_append, hsub]
            rw [if_pos rfl]
            dsimp only at hq03
            rw [hq03]
        · obtain ⟨q, hq1, hq2, hq3⟩ := hent e hmem
          refine ⟨q, hq1, hq2, ?_⟩
          rw [childLabels_append, hsub]
          rw [if_neg (by simp [Ne.symm hne])]
          simp [hq3]
      · intro k
        rw [alookup_aupdate_isSome, KeyCond_append, hsub]
        constructor
        · intro h
          exact Or.inl ((hkey k).mp h)
        · rintro (h | h | h)
          · exact (hkey k).mpr h
          · exact absurd h.1 (by simp)
          · have hpk : pc = k := Option.some.inj h.1
            rw [← hpk, hlk]
            rfl
    | none =>
      dsimp only
      cases hfo : findOrg l pc with
      | none =>
        refine ⟨hnodup, ?_, ?_⟩
        · intro e he
          obtain ⟨q, hq1, hq2, hq3⟩ := hent e he
          have hne : e.1 ≠ pc := by
            intro h
            have : (alookup m pc).isSome = true := by
              refine (alookup_isSome_iff m pc).mpr ⟨e.2, ?_⟩
              rw [← h]
              simpa using he
            rw [hlk] at this
            cases this
          refine ⟨q, hq1, hq2, ?_⟩
          rw [childLabels_append, hsub]
          rw [if_neg (by simp [Ne.symm hne])]
          simp [hq3]
        · intro k
          rw [KeyCond_append, hsub]
          constructor
          · intro h
            exact Or.inl ((hkey k).mp h)
          · rintro (h | h | h)
            · exact (hkey k).mpr h
            · exact absurd h.1 (by simp)
            · have hpk : pc = k := Option.some.inj h.1
              rw [← hpk, hfo] at h
              cases h.2
      | some q2 =>
        dsimp only
        have hpcnotkey : pc ∉ m.map Prod.fst := by
          intro hmm
          obtain ⟨v, hv⟩ := (mem_keys_iff m pc).mp hmm
          have : (alookup m pc).isSome = true :=
            (alookup_isSome_iff m pc).mpr ⟨v, hv⟩
          rw [hlk] at this
          cases this
        refine ⟨?_, ?_, ?_⟩
        · rw [List.map_append]
          refine List.Nodup.append hnodup (by simp) ?_
          intro a ha hb
          have : a = pc := by simpa using hb
          subst this
          exact hpcnotkey ha
        · intro e he
          rcases List.mem_append.mp he with he | he
          · obtain ⟨q, hq1, hq2, hq3⟩ := hent e he
            have hne : e.1 ≠ pc := by
              intro h
              exact hpcnotkey (h ▸ List.mem_map_of_mem Prod.fst he)
            refine ⟨q, hq1, hq2, ?_⟩
            rw [childLabels_append, hsub]
            rw [if_neg (by simp [Ne.symm hne])]
            simp [hq3]
          · have he' : e = (pc, q2.preferredLabel, [x.preferredLabel]) := by
              simpa using he
            subst he'
            refine ⟨q2, hfo, rfl, ?_⟩
            rw [childLabels_append, hsub]
            rw [if_pos rfl]
            have hnil : childLabels pre pc = [] := by
              refine childLabels_eq_nil ?_
              intro r hr hrs
              have : (alookup m pc).isSome = true := by
                refine (hkey pc).mpr (Or.inr ⟨r, hr, hrs, ?_⟩)
                rw [hfo]
                rfl
              rw [hlk] at this
              cases this
            rw [hnil]
            rfl
        · intro k
          rw [alookup_append_singleton_isSome, KeyCond_append, hsub]
          constructor
          · rintro (h | h)
            · exact Or.inl ((hkey k).mp h)
            · refine Or.inr (Or.inr ⟨by rw [h], ?_⟩)
              rw [h, hfo]
              rfl
          · rintro (h | h | h)
            · exact Or.inl ((hkey k).mpr h)
            · exact absurd h.1 (by simp)
            · exact Or.inr (Option.some.inj h.1).symm

/-- The hierarchy fold preserves the full invariant. -/
theorem foldl_hierStep_good (l : List Org) (hcodes : (l.map Org.code).Nodup) :
    ∀ (suf pre : List Org) (m : PCMap), (∀ y ∈ suf, y ∈ l) →
      GoodMap l pre m → GoodMap l (pre ++ suf) (suf.foldl (hierStep l) m) := by
  intro suf
  induction suf with
  | nil =>
    intro pre m _ hm
    rw [List.append_nil]
    exact hm
  | cons x rest ih =>
    intro pre m hsub hm
    rw [List.foldl_cons, show pre ++ x :: rest = (pre ++ [x]) ++ rest from by simp]
    refine ih (pre ++ [x]) _ (fun y hy => hsub y (List.mem_cons_of_mem x hy)) ?_
    exact hierStep_good l hcodes pre x (hsub x (List.mem_cons_self x rest)) m hm

/-- The full hierarchy fold satisfies the invariant. -/
theorem buildPCMap_good (l : List Org) (hcodes : (l.map Org.code).Nodup) :
    GoodMap l l (buildPCMap l) := by
  have := foldl_hierStep_good l hcodes l [] [] (fun y hy => hy) (GoodMap_nil l)
  rw [List.nil_append] at this
  exact this

/-- With pairwise-distinct codes and labels, the node labels of the built
`parent_children_orgs` map are pairwise distinct. -/
theorem buildPCMap_labels_nodup (l : List Org)
    (hcodes : (l.map Org.code).Nodup)
    (hlabels : (l.map Org.preferredLabel).Nodup) :
    ((buildPCMap l).map (fun e => e.2.1)).Nodup := by
  obtain ⟨hnodup, hent, _⟩ := buildPCMap_good l hcodes
  have hmnodup : (buildPCMap l).Nodup := List.Nodup.of_map Prod.fst hnodup
  rw [List.nodup_map_iff_inj_on hmnodup]
  intro e1 h1 e2 h2 heq
  obtain ⟨q1, hq11, hq12, _⟩ := hent e1 h1
  obtain ⟨q2, hq21, hq22, _⟩ := hent e2 h2
  have hq : q1 = q2 := by
    refine List.inj_on_of_nodup_map hlabels (findOrg_mem hq11).1
      (findOrg_mem hq21).1 ?_
    rw [← hq12, ← hq22, heq]
  have hkeys : e1.1 = e2.1 := by
    rw [← (findOrg_mem hq11).2, ← (findOrg_mem hq21).2, hq]
  exact List.inj_on_of_nodup_map hnodup h1 h2 hkeys

/-- When no two node labels collide, the final re-keying loop is a plain
per-entry projection. -/
theorem hinsert_fold_eq_append :
    ∀ (ms : List PCEntry) (acc : List (String × List String)),
      (acc.map Prod.fst ++ ms.map (fun e => e.2.1)).Nodup →
      ms.foldl (fun h e => hinsert h e.2.1 e.2.2) acc =
      acc ++ ms.map (fun e => (e.2.1, e.2.2)) := by
  intro ms
  induction ms with
  | nil =>
    intro acc _
    simp
  | cons x rest ih =>
    intro acc hnd
    rw [List.foldl_cons]
    have hxnot : x.2.1 ∉ acc.map Prod.fst := by
      intro hmem
      exact List.disjoint_of_nodup_append hnd hmem (by simp)
    have hins : hinsert acc x.2.1 x.2.2 = acc ++ [(x.2.1, x.2.2)] := by
      unfold hinsert
      rw [if_neg]
      intro hs
      obtain ⟨v, hv⟩ := (alookup_isSome_iff acc x.2.1).mp hs
      exact hxnot ((mem_keys_iff acc x.2.1).mpr ⟨v, hv⟩)
    rw [hins]
    have hnd' : ((acc ++ [(x.2.1, x.2.2)]).map Prod.fst ++
        rest.map (fun e => e.2.1)).Nodup := by
      rw [List.map_append]
      rw [List.append_assoc]
      have hx1 : (([(x.2.1, x.2.2)] : List (String × List String)).map Prod.fst) ++
          rest.map (fun e => e.2.1) = x.2.1 :: rest.map (fun e => e.2.1) := by
        simp
      rw [hx1]
      simpa using hnd
    rw [ih (acc ++ [(x.2.1, x.2.2)]) hnd']
    simp

/-- When the node labels are pairwise distinct, `hierFinalize` only
re-keys the map by label, entry by entry. -/
theorem hierFinalize_eq_map (m : PCMap)
    (hl : (m.map (fun e => e.2.1)).Nodup) :
    hierFinalize m = m.map (fun e => (e.2.1, e.2.2)) := by
  unfold hierFinalize
  have := hinsert_fold_eq_append m [] (by simpa using hl)
  simpa using this

/-- Characterization of the hierarchy edges, for records with
pairwise-distinct codes and labels: `(p, c)` is an edge exactly when some
records `P` and `C` of the list have `C.subOrganizationOf = P.code`,
`P.preferredLabel = p` and `C.preferredLabel = c`. -/
theorem mem_hierarchyPairs (l : List Org)
    (hcodes : (l.map Org.code).Nodup)
    (hlabels : (l.map Org.preferredLabel).Nodup) (p c : String) :
    (p, c) ∈ hierarchyPairs (fetch_hierarchy l) ↔
    ∃ P C, P ∈ l ∧ C ∈ l ∧ C.subOrganizationOf = some P.code ∧
      P.preferredLabel = p ∧ C.preferredLabel = c := by
  obtain ⟨hnodup, hent, hkey⟩ := buildPCMap_good l hcodes
  have hfin : fetch_hierarchy l = (buildPCMap l).map (fun e => (e.2.1, e.2.2)) :=
    hierFinalize_eq_map _ (buildPCMap_labels_nodup l hcodes hlabels)
  rw [hfin]
  unfold hierarchyPairs
  rw [List.mem_flatMap]
  constructor
  · rintro ⟨eh, hehmem, hpr⟩
    obtain ⟨e, hemem, rfl⟩ := List.mem_map.mp hehmem
    obtain ⟨c', hc', heq⟩ := List.mem_map.mp hpr
    injection heq with heq1 heq2
    subst heq1
    subst heq2
    obtain ⟨q, hq1, hq2, hq3⟩ := hent e hemem
    rw [hq3] at hc'
    obtain ⟨C, hC, hCsub, hClab⟩ := mem_childLabels.mp hc'
    refine ⟨q, C, (findOrg_mem hq1).1, hC, ?_, hq2.symm, hClab⟩
    rw [(findOrg_mem hq1).2]
    exact hCsub
  · rintro ⟨P, C, hP, hC, hCsub, rfl, rfl⟩
    have hfind : findOrg l P.code = some P := findOrg_of_mem hcodes hP
    have hks : (alookup (buildPCMap l) P.code).isSome = true := by
      refine (hkey P.code).mpr (Or.inr ⟨C, hC, hCsub, ?_⟩)
      rw [hfind]
      rfl
    obtain ⟨v, hv⟩ := (alookup_isSome_iff _ _).mp hks
    obtain ⟨q, hq1, hq2, hq3⟩ := hent (P.code, v) hv
    have hqP : q = P := by
      have h1 : findOrg l P.code = some q := hq1
      rw [hfind] at h1
      exact (Option.some.inj h1).symm
    refine ⟨(v.1, v.2), List.mem_map.mpr ⟨(P.code, v), hv, rfl⟩, ?_⟩
    refine List.mem_map.mpr ⟨C.preferredLabel, ?_, ?_⟩
    · have h2 : v.2 = childLabels l P.code := hq3
      rw [h2]
      exact mem_childLabels.mpr ⟨C, hC, hCsub, rfl⟩
    · have h1 : v.1 = P.preferredLabel := by
        have := hq2
        rw [hqP] at this
        exact this
      rw [h1]

/-- C2 counterexample: a record's name can appear more than once as a
hierarchy child of the same parent — two distinct child records with the
same `preferredLabel` `X` and the same parent both append `X`, since the
code does not deduplicate children. -/
theorem c2_counterexample :
    fetch_hierarchy
      [⟨"1", "P", none⟩, ⟨"2", "X", some "1"⟩, ⟨"3", "X", some "1"⟩] =
      [("P", ["X", "X"])] ∧
    (["X", "X"] : List String).count "X" = 2 := by
  refine ⟨by decide, by decide⟩

/-- C2 amended: for records with pairwise-distinct codes and
pairwise-distinct `preferredLabel`s, building the hierarchy from the list
and from its reversed list yields the same set of (parent name, child name)
pairs, and every name appears at most once as a hierarchy child per
parent. -/
theorem c2_amended (l : List Org)
    (hcodes : (l.map Org.code).Nodup)
    (hlabels : (l.map Org.preferredLabel).Nodup) :
    (∀ pr : String × String,
      pr ∈ hierarchyPairs (fetch_hierarchy l) ↔
      pr ∈ hierarchyPairs (fetch_hierarchy l.reverse)) ∧
    ∀ e ∈ fetch_hierarchy l, e.2.Nodup := by
  have hcodes' : (l.reverse.map Org.code).Nodup := by
    rw [List.map_reverse, List.nodup_reverse]
    exact hcodes
  have hlabels' : (l.reverse.map Org.preferredLabel).Nodup := by
    rw [List.map_reverse, List.nodup_reverse]
    exact hlabels
  constructor
  · intro pr
    obtain ⟨p, c⟩ := pr
    rw [mem_hierarchyPairs l hcodes hlabels p c,
      mem_hierarchyPairs l.reverse hcodes' hlabels' p c]
    constructor
    · rintro ⟨P, C, hP, hC, h1, h2, h3⟩
      exact ⟨P, C, List.mem_reverse.mpr hP, List.mem_reverse.mpr hC, h1, h2, h3⟩
    · rintro ⟨P, C, hP, hC, h1, h2, h3⟩
      exact ⟨P, C, List.mem_reverse.mp hP, List.mem_reverse.mp hC, h1, h2, h3⟩
  · intro e he
    have hfin : fetch_hierarchy l = (buildPCMap l).map (fun e => (e.2.1, e.2.2)) :=
      hierFinalize_eq_map _ (buildPCMap_labels_nodup l hcodes hlabels)
    rw [hfin] at he
    obtain ⟨e', he', rfl⟩ := List.mem_map.mp he
    obtain ⟨q, _, _, hq3⟩ := (buildPCMap_good l hcodes).2.1 e' he'
    show e'.2.2.Nodup
    rw [hq3]
    unfold childLabels
    refine List.Nodup.sublist ?_ hlabels
    exact List.Sublist.map _ (List.filter_sublist l)

/-- C2 witness: the amended order-independence theorem on a three-record
list with distinct codes and labels. -/
theorem c2_witness :
    (([⟨"1", "P", none⟩, ⟨"2", "X", some "1"⟩, ⟨"3", "Y", some "1"⟩] :
      List Org).map Org.code).Nodup ∧
    (([⟨"1", "P", none⟩, ⟨"2", "X", some "1"⟩, ⟨"3", "Y", some "1"⟩] :
      List Org).map Org.preferredLabel).Nodup ∧
    ((("P", "X") : String × String) ∈ hierarchyPairs (fetch_hierarchy
      [⟨"1", "P", none⟩, ⟨"2", "X", some "1"⟩, ⟨"3", "Y", some "1"⟩]) ↔
     (("P", "X") : String × String) ∈ hierarchyPairs (fetch_hierarchy
      (List.reverse [⟨"1", "P", none⟩, ⟨"2", "X", some "1"⟩, ⟨"3", "Y", some "1"⟩]))) ∧
    ∀ e ∈ fetch_hierarchy
      [⟨"1", "P", none⟩, ⟨"2", "X", some "1"⟩, ⟨"3", "Y", some "1"⟩],
      e.2.Nodup :=
  ⟨by decide, by decide,
    (c2_amended [⟨"1", "P", none⟩, ⟨"2", "X", some "1"⟩, ⟨"3", "Y", some "1"⟩]
      (by decide) (by decide)).1 ("P", "X"),
    (c2_amended [⟨"1", "P", none⟩, ⟨"2", "X", some "1"⟩, ⟨"3", "Y", some "1"⟩]
      (by decide) (by decide)).2⟩

/-! ### Lemmas about the template-block remover -/

theorem reSubFuel_nil (fuel : Nat) : reSubFuel fuel [] = [] := by
  cases fuel <;> rfl

/-- A successful `tryMatch` consumes at least one character. -/
theorem tryMatch_pos {s : List Char} {n : Nat} (h : tryMatch s = some n) :
    1 ≤ n := by
  unfold tryMatch at h
  split at h
  · dsimp only at h
    split at h
    · cases h
    · split at h
      · injection h with h
        omega
      · cases h
  · cases h

/-- A successful `tryMatch` consumes at most the whole input. -/
theorem tryMatch_le {s : List Char} {n : Nat} (h : tryMatch s = some n) :
    n ≤ s.length := by
  unfold tryMatch at h
  split at h
  case isTrue hpre =>
    dsimp only at h
    split at h
    · cases h
    case isFalse hrun =>
      split at h
      case isTrue hclose =>
        injection h with h
        subst h
        rw [List.isPrefixOf_iff_prefix] at hpre hclose
        have hople : templateOpening.length ≤ s.length := hpre.length_le
        have htwle : ((s.drop templateOpening.length).takeWhile nonBrace).length ≤
            (s.drop templateOpening.length).length :=
          (List.takeWhile_prefix nonBrace).length_le
        have hge2 : 2 ≤ ((s.drop templateOpening.length).drop
            ((s.drop templateOpening.length).takeWhile nonBrace).length).length := by
          have := hclose.length_le
          simpa using this
        rw [List.length_drop] at htwle
        rw [List.length_drop, List.length_drop] at hge2
        omega
      · cases h
  · cases h

/-- The matcher `tryMatch` fails when the first character is not a brace. -/
theorem tryMatch_none_of_nonBrace {c : Char} (hc : nonBrace c = true)
    (s : List Char) : tryMatch (c :: s) = none := by
  have hne : ('\x7b' == c) = false := by
    simp only [nonBrace, Bool.not_eq_true', Bool.or_eq_false_iff,
      decide_eq_false_iff_not] at hc
    rw [beq_eq_false_iff_ne]
    exact fun h => hc.1 h.symm
  unfold tryMatch
  rw [if_neg]
  intro hpre
  simp only [templateOpening, List.isPrefixOf, String.data] at hpre
  rw [Bool.and_eq_true] at hpre
  rw [hne] at hpre
  exact Bool.false_ne_true hpre.1

/-- The matcher `tryMatch` succeeds on a well-formed template block, whatever follows,
and consumes exactly the block. -/
theorem tryMatch_block {mid : List Char} (hmid : mid ≠ [])
    (hbf : braceFree mid = true) (t : List Char) :
    tryMatch (templateBlock mid ++ t) = some (templateBlock mid).length := by
  have hassoc : templateBlock mid ++ t =
      templateOpening ++ (mid ++ ('\x7d' :: '\x7d' :: t)) := by
    simp [templateBlock]
  rw [hassoc]
  have hpre : templateOpening.isPrefixOf
      (templateOpening ++ (mid ++ ('\x7d' :: '\x7d' :: t))) = true := by
    rw [List.isPrefixOf_iff_prefix]
    exact List.prefix_append _ _
  unfold tryMatch
  rw [if_pos hpre]
  dsimp only
  rw [List.drop_left]
  have hmidall : ∀ c ∈ mid, nonBrace c = true := by
    intro c hcmem
    exact List.all_eq_true.mp hbf c hcmem
  have htake : (mid ++ ('\x7d' :: '\x7d' :: t)).takeWhile nonBrace = mid := by
    rw [List.takeWhile_append_of_pos hmidall]
    rw [List.takeWhile_cons_of_neg (by decide)]
    simp
  rw [htake]
  rw [if_neg (by simp [List.isEmpty_iff, hmid])]
  rw [List.drop_left]
  rw [if_pos (by
    rw [List.isPrefixOf_iff_prefix]
    exact List.prefix_append ['\x7d', '\x7d'] t)]
  have hlen : (templateBlock mid).length =
      templateOpening.length + mid.length + 2 := by
    simp only [templateBlock, List.length_append, List.length_cons,
      List.length_nil]
    try omega
  rw [hlen]

/-- The amount of fuel does not matter as long as it covers the input
length. -/
theorem reSubFuel_fuel_irrel :
    ∀ (f1 : Nat) (s : List Char) (f2 : Nat), s.length ≤ f1 → s.length ≤ f2 →
      reSubFuel f1 s = reSubFuel f2 s := by
  intro f1
  induction f1 with
  | zero =>
    intro s f2 h1 _
    rw [List.length_eq_zero.mp (Nat.le_zero.mp h1)]
    rw [reSubFuel_nil, reSubFuel_nil]
  | succ f1 ih =>
    intro s f2 h1 h2
    match s with
    | [] => rw [reSubFuel_nil, reSubFuel_nil]
    | c :: rest =>
      match f2, h2 with
      | f2 + 1, h2 =>
        rw [reSubFuel, reSubFuel]
        cases hm : tryMatch (c :: rest) with
        | some n =>
          have hpos := tryMatch_pos hm
          have hle := tryMatch_le hm
          have hdl : ((c :: rest).drop n).length = (c :: rest).length - n := by
            rw [List.length_drop]
          refine ih _ _ ?_ ?_
          · rw [hdl]; simp at h1 ⊢; omega
          · rw [hdl]; simp at h2 ⊢; omega
        | none =>
          rw [ih rest f2 (by simpa using Nat.le_of_succ_le_succ h1)
            (by simpa using Nat.le_of_succ_le_succ h2)]

/-- The scan passes a brace-free prefix through unchanged. -/
theorem reSubTemplate_append_braceFree :
    ∀ (s0 : List Char), braceFree s0 = true → ∀ (t : List Char),
      reSubTemplate (s0 ++ t) = s0 ++ reSubTemplate t := by
  intro s0
  induction s0 with
  | nil => intro _ t; simp
  | cons c s0' ih =>
    intro hbf t
    have hc : nonBrace c = true := by
      rw [braceFree, List.all_cons, Bool.and_eq_true] at hbf
      exact hbf.1
    have hbf' : braceFree s0' = true := by
      rw [braceFree, List.all_cons, Bool.and_eq_true] at hbf
      exact hbf.2
    show reSubFuel (c :: (s0' ++ t)).length (c :: (s0' ++ t)) = _
    rw [List.length_cons, reSubFuel, tryMatch_none_of_nonBrace hc]
    dsimp only
    rw [show reSubFuel (s0' ++ t).length (s0' ++ t) = reSubTemplate (s0' ++ t)
      from rfl]
    rw [ih hbf' t]
    rfl

/-- The scan removes a leading well-formed template block and resumes
after it. -/
theorem reSubTemplate_block_cons {mid : List Char} (hmid : mid ≠ [])
    (hbf : braceFree mid = true) (t : List Char) :
    reSubTemplate (templateBlock mid ++ t) = reSubTemplate t := by
  have hblock : templateBlock mid ++ t =
      '\x7b' :: ('\x7b' :: ("Φορέας".data ++ mid ++ ['\x7d', '\x7d']) ++ t) := by
    simp [templateBlock, templateOpening]
  show reSubFuel (templateBlock mid ++ t).length (templateBlock mid ++ t) = _
  rw [hblock]
  rw [List.length_cons, reSubFuel]
  rw [← hblock, tryMatch_block hmid hbf t]
  dsimp only
  rw [List.drop_left' rfl]
  have hblen : 1 ≤ (templateBlock mid).length := by
    simp only [templateBlock, List.length_append, List.length_cons,
      List.length_nil]
    omega
  have hlen : ('\x7b' :: ("Φορέας".data ++ mid ++ ['\x7d', '\x7d']) ++ t).length =
      (templateBlock mid ++ t).length - 1 := by
    have := congrArg List.length hblock
    rw [List.length_cons] at this
    omega
  rw [hlen]
  refine reSubFuel_fuel_irrel _ t t.length ?_ le_rfl
  rw [List.length_append]
  omega

/-- The global scan of `re.sub` on a text decomposed into a brace-free
prelude followed by alternating well-formed template blocks and brace-free
segments removes exactly the blocks and keeps everything else. -/
theorem reSubTemplate_decompose :
    ∀ (parts : List (List Char × List Char)) (s0 : List Char),
      braceFree s0 = true →
      (∀ pr ∈ parts,
        pr.1 ≠ [] ∧ braceFree pr.1 = true ∧ braceFree pr.2 = true) →
      reSubTemplate (s0 ++ parts.flatMap (fun pr => templateBlock pr.1 ++ pr.2)) =
      s0 ++ parts.flatMap (fun pr => pr.2) := by
  intro parts
  induction parts with
  | nil =>
    intro s0 h0 _
    simp only [List.flatMap_nil, List.append_nil]
    have := reSubTemplate_append_braceFree s0 h0 []
    rw [List.append_nil] at this
    rw [this]
    simp [reSubTemplate, reSubFuel_nil]
  | cons pr rest ih =>
    intro s0 h0 hparts
    obtain ⟨hne, hbf1, hbf2⟩ := hparts pr (List.mem_cons_self pr rest)
    rw [List.flatMap_cons]
    rw [show s0 ++ ((templateBlock pr.1 ++ pr.2) ++
        rest.flatMap (fun q => templateBlock q.1 ++ q.2)) =
      s0 ++ (templateBlock pr.1 ++
        (pr.2 ++ rest.flatMap (fun q => templateBlock q.1 ++ q.2))) from by
      simp [List.append_assoc]]
    rw [reSubTemplate_append_braceFree s0 h0]
    rw [reSubTemplate_block_cons hne hbf1]
    rw [ih pr.2 hbf2 (fun q hq => hparts q (List.mem_cons_of_mem pr hq))]
    simp

/-- C4 counterexample: the page-text merge of `update_pages` does not
remove exactly one template block — `re.sub` with no count removes every
match.  On a page holding two template blocks around an `X`, the code
leaves only `X`, while removing exactly one (leftmost) block would leave
`X` followed by the second block. -/
theorem c4_counterexample :
    mergePageText "R" "\x7b\x7bΦορέας|a\x7d\x7dX\x7b\x7bΦορέας|b\x7d\x7d" ≠
    mergePageTextOnce "R" "\x7b\x7bΦορέας|a\x7d\x7dX\x7b\x7bΦορέας|b\x7d\x7d" := by
  decide

/-- C4 amended: for every existing page text made of a brace-free prelude
followed by well-formed template blocks (opening marker, a nonempty span
with no braces, the closing braces) separated by brace-free segments, the
merge step removes every such template block in one pass, keeps the
remaining text trimmed, and sets the page to the freshly rendered text
followed by a newline and that remainder. -/
theorem c4_amended (rendered : String) (s0 : List Char)
    (parts : List (List Char × List Char))
    (h0 : braceFree s0 = true)
    (hparts : ∀ pr ∈ parts,
      pr.1 ≠ [] ∧ braceFree pr.1 = true ∧ braceFree pr.2 = true) :
    mergePageText rendered
      (String.mk (s0 ++ parts.flatMap (fun pr => templateBlock pr.1 ++ pr.2))) =
    rendered ++ "\n" ++
      pyStrip (String.mk (s0 ++ parts.flatMap (fun pr => pr.2))) := by
  unfold mergePageText
  rw [show (String.mk
      (s0 ++ parts.flatMap (fun pr => templateBlock pr.1 ++ pr.2))).data =
    s0 ++ parts.flatMap (fun pr => templateBlock pr.1 ++ pr.2) from rfl]
  rw [reSubTemplate_decompose parts s0 h0 hparts]

/-! ### The hierarchy builder never places an orphan (C1) -/

/-- One step of the hierarchy fold preserves the orphan-exclusion
invariant. -/
theorem hierStep_c1inv (l : List Org) (o : Org) (p : String)
    (ho : o.subOrganizationOf = some p) (hp : findOrg l p = none)
    (href : ∀ q ∈ l, q.subOrganizationOf ≠ some o.code)
    (x : Org) (hx : x ∈ l) (m : PCMap) (hm : C1Inv l o m) :
    C1Inv l o (hierStep l m x) := by
  cases hsub : x.subOrganizationOf with
  | none =>
    simp only [hierStep, hsub]
    by_cases hl : (alookup m x.code).isSome = true
    · rw [if_pos hl]
      exact hm
    · rw [if_neg hl]
      intro e he
      rcases List.mem_append.mp he with he | he
      · exact hm e he
      · have he' : e = (x.code, x.preferredLabel, []) := by simpa using he
        subst he'
        have hxo : x ≠ o := by
          intro h
          rw [h, ho] at hsub
          cases hsub
        exact ⟨⟨x, hx, rfl⟩, ⟨x, hx, hxo, rfl⟩, by simp⟩
  | some pc =>
    simp only [hierStep, hsub]
    cases hlk : alookup m pc with
    | some plch =>
      obtain ⟨plabel, children⟩ := plch
      dsimp only
      have hxo : x ≠ o := by
        intro h
        subst h
        rw [ho] at hsub
        injection hsub with h2
        subst h2
        obtain ⟨w, hw⟩ := (alookup_isSome_iff m p).mp (by rw [hlk]; rfl)
        obtain ⟨q, hq, hqc⟩ := (hm _ hw).1
        exact findOrg_eq_none_iff.mp hp q hq hqc
      intro e he
      rcases mem_aupdate he with ⟨he1, he2⟩ | ⟨hmem, _⟩
      · have hold : (pc, (plabel, children)) ∈ m := alookup_mem hlk
        obtain ⟨h1, h2, h3⟩ := hm _ hold
        refine ⟨by rw [he1]; exact h1, ?_, ?_⟩
        · rw [he2]
          exact h2
        · rw [he2]
          intro c hc
          rcases List.mem_append.mp hc with hc | hc
          · exact h3 c hc
          · have hc' : c = x.preferredLabel := by simpa using hc
            subst hc'
            exact ⟨x, hx, hxo, rfl⟩
      · exact hm e hmem
    | none =>
      dsimp only
      cases hfo : findOrg l pc with
      | none => exact hm
      | some q2 =>
        dsimp only
        obtain ⟨hq2mem, hq2code⟩ := findOrg_mem hfo
        have hq2o : q2 ≠ o := by
          intro h
          subst h
          refine href x hx ?_
          rw [hsub, hq2code]
        have hxo : x ≠ o := by
          intro h
          subst h
          rw [ho] at hsub
          injection hsub with h2
          subst h2
          rw [hfo] at hp
          cases hp
        intro e he
        rcases List.mem_append.mp he with he | he
        · exact hm e he
        · have he' : e = (pc, q2.preferredLabel, [x.preferredLabel]) := by
            simpa using he
          subst he'
          refine ⟨⟨q2, hq2mem, hq2code⟩, ⟨q2, hq2mem, hq2o, rfl⟩, ?_⟩
          intro c hc
          have hc' : c = x.preferredLabel := by simpa using hc
          subst hc'
          exact ⟨x, hx, hxo, rfl⟩

/-- The hierarchy fold preserves the orphan-exclusion invariant. -/
theorem foldl_hierStep_c1inv (l : List Org) (o : Org) (p : String)
    (ho : o.subOrganizationOf = some p) (hp : findOrg l p = none)
    (href : ∀ q ∈ l, q.subOrganizationOf ≠ some o.code) :
    ∀ (orgs : List Org) (m : PCMap), (∀ x ∈ orgs, x ∈ l) → C1Inv l o m →
      C1Inv l o (orgs.foldl (hierStep l) m) := by
  intro orgs
  induction orgs with
  | nil => intro m _ hm; exact hm
  | cons x rest ih =>
    intro m hsub hm
    rw [List.foldl_cons]
    refine ih _ (fun y hy => hsub y (List.mem_cons_of_mem x hy)) ?_
    exact hierStep_c1inv l o p ho hp href x (hsub x (List.mem_cons_self x rest)) m hm

/-- Every entry of the finalized hierarchy carries the label and children
of some entry of the `parent_children_orgs` map. -/
theorem mem_hierFinalize {m : PCMap} :
    ∀ e ∈ hierFinalize m, ∃ e' ∈ m, e.1 = e'.2.1 ∧ e.2 = e'.2.2 := by
  have main : ∀ (ms : List PCEntry) (h : List (String × List String)),
      (∀ x ∈ ms, x ∈ m) →
      (∀ e ∈ h, ∃ e' ∈ m, e.1 = e'.2.1 ∧ e.2 = e'.2.2) →
      ∀ e ∈ ms.foldl (fun h e => hinsert h e.2.1 e.2.2) h,
        ∃ e' ∈ m, e.1 = e'.2.1 ∧ e.2 = e'.2.2 := by
    intro ms
    induction ms with
    | nil => intro h _ hh; exact hh
    | cons x rest ih =>
      intro h hsub hh
      rw [List.foldl_cons]
      refine ih _ (fun y hy => hsub y (List.mem_cons_of_mem x hy)) ?_
      intro e he
      unfold hinsert at he
      split at he
      · rcases mem_aupdate he with ⟨he1, he2⟩ | ⟨hmem, _⟩
        · exact ⟨x, hsub x (List.mem_cons_self x rest), he1, he2⟩
        · exact hh e hmem
      · rcases List.mem_append.mp he with he | he
        · exact hh e he
        · have he' : e = (x.2.1, x.2.2) := by simpa using he
          subst he'
          exact ⟨x, hsub x (List.mem_cons_self x rest), rfl, rfl⟩
  intro e he
  exact main m [] (fun x hx => hx) (by simp) e he

/-- C1 counterexample: a child record whose parent code matches no record
is not always excluded from the hierarchy.  Record `A` (code 1) points to
the nonexistent parent code 99, yet record `B` points to `A`, so a node
keyed by `A`'s preferredLabel is created and `"A"` is a root key of the
built hierarchy. -/
theorem c1_counterexample :
    ((⟨"1", "A", some "99"⟩ : Org) ∈
      ([⟨"1", "A", some "99"⟩, ⟨"2", "B", some "1"⟩] : List Org)) ∧
    (∀ q ∈ ([⟨"1", "A", some "99"⟩, ⟨"2", "B", some "1"⟩] : List Org),
      q.code ≠ "99") ∧
    (fetch_hierarchy [⟨"1", "A", some "99"⟩, ⟨"2", "B", some "1"⟩]).map
      Prod.fst = ["A"] := by
  refine ⟨by decide, by decide, by decide⟩

/-- C1 amended: a child record `o` whose `subOrganizationOf` code matches
no record's code is excluded from the built hierarchy — its
`preferredLabel` is neither a root key nor in any children list — provided
no other record shares its `preferredLabel` and no record references `o`'s
own code as parent; and unconditionally no node is created for the missing
parent code. -/
theorem c1_amended (l : List Org) (o : Org) (p : String)
    (_hmem : o ∈ l)
    (ho : o.subOrganizationOf = some p)
    (hp : ∀ q ∈ l, q.code ≠ p)
    (hlab : ∀ q ∈ l, q ≠ o → q.preferredLabel ≠ o.preferredLabel)
    (href : ∀ q ∈ l, q.subOrganizationOf ≠ some o.code) :
    (∀ e ∈ fetch_hierarchy l,
      e.1 ≠ o.preferredLabel ∧ o.preferredLabel ∉ e.2) ∧
    (∀ e ∈ buildPCMap l, e.1 ≠ p) := by
  have hfo : findOrg l p = none := findOrg_eq_none_iff.mpr hp
  have hinv : C1Inv l o (buildPCMap l) := by
    unfold buildPCMap
    exact foldl_hierStep_c1inv l o p ho hfo href l [] (fun x hx => hx)
      (by intro e he; cases he)
  constructor
  · intro e he
    obtain ⟨e', he'mem, h1, h2⟩ := mem_hierFinalize e he
    obtain ⟨_, ⟨q, hq, hqo, hqlab⟩, hch⟩ := hinv e' he'mem
    constructor
    · rw [h1, ← hqlab]
      exact hlab q hq hqo
    · rw [h2]
      intro hcmem
      obtain ⟨q', hq', hq'o, hq'lab⟩ := hch _ hcmem
      exact hlab q' hq' hq'o hq'lab
  · intro e he
    obtain ⟨⟨q, hq, hqc⟩, _, _⟩ := hinv e he
    intro hep
    rw [hep] at hqc
    exact hp q hq hqc

/-- C1 witness: the amended orphan-exclusion theorem on the list with an
orphan `A` (missing parent code 99) and an unrelated root `B`. -/
theorem c1_witness :
    ((⟨"1", "A", some "99"⟩ : Org) ∈
      ([⟨"1", "A", some "99"⟩, ⟨"2", "B", none⟩] : List Org)) ∧
    (∀ e ∈ fetch_hierarchy [⟨"1", "A", some "99"⟩, ⟨"2", "B", none⟩],
      e.1 ≠ "A" ∧ "A" ∉ e.2) ∧
    (∀ e ∈ buildPCMap [⟨"1", "A", some "99"⟩, ⟨"2", "B", none⟩],
      e.1 ≠ "99") :=
  ⟨by decide,
    (c1_amended [⟨"1", "A", some "99"⟩, ⟨"2", "B", none⟩]
      ⟨"1", "A", some "99"⟩ "99" (by decide) rfl (by decide) (by decide)
      (by decide)).1,
    (c1_amended [⟨"1", "A", some "99"⟩, ⟨"2", "B", none⟩]
      ⟨"1", "A", some "99"⟩ "99" (by decide) rfl (by decide) (by decide)
      (by decide)).2⟩

/-- C4 witness: the amended merge theorem on a page with a prelude, one
template block and trailing free text. -/
theorem c4_witness :
    braceFree "intro ".data = true ∧
    mergePageText "NEW"
      (String.mk ("intro ".data ++
        ([("|gov_org_code=1".data, "\nfree tail ".data)] :
          List (List Char × List Char)).flatMap
          (fun pr => templateBlock pr.1 ++ pr.2))) =
    "NEW" ++ "\n" ++
      pyStrip (String.mk ("intro ".data ++
        ([("|gov_org_code=1".data, "\nfree tail ".data)] :
          List (List Char × List Char)).flatMap (fun pr => pr.2))) :=
  ⟨by decide, c4_amended "NEW" "intro ".data _ (by decide) (by decide)⟩

end Diavlos

